import Mathlib

/-!
Verification development for the attention sequence-to-sequence dialogue
model of `tutorials/tutorial3_seq2seq_dialog.ipynb` (the only module of the
repository with nontrivial algorithmic contracts), together with the
`SubtitlesDialogDataset` sentence processing and the `Vocab` CSV
save/load round trip from the same notebook.

Numeric tensors are embedded as lists of rationals (`Vec`); exact rational
arithmetic stands for the notebook's floating-point arithmetic.  The two
transcendental library primitives the code uses, `torch.exp` (inside
`softmax_masked`) and `torch.tanh` (inside the attention score), are kept
abstract: theorems quantify over the function, assuming only what the real
exponential satisfies (positivity) where that is needed.  Library neural
primitives with their own internal weights (`torch.nn.GRU`,
`torch.nn.GRUCell`) are abstracted as step functions `Vec → Vec → Vec`,
while `torch.nn.Linear` is embedded concretely as a weight matrix and a
bias vector.  All batched tensor operations of the notebook act
independently on each batch row, so the embedding models one batch row and
recovers the batch by mapping.
-/

/-- A numeric vector: one row of a tensor, with exact rational entries. -/
abbrev Vec := List ℚ

/-- Pointwise addition of vectors (broadcast `+` of the tensor library). -/
def vadd (a b : Vec) : Vec := List.zipWith (· + ·) a b

/-- Scalar times vector (broadcast `*` of the tensor library). -/
def smul (c : ℚ) (v : Vec) : Vec := v.map (fun x => c * x)

/-- Dot product of two vectors. -/
def dot (w x : Vec) : ℚ := (List.zipWith (· * ·) w x).sum

/-- A `torch.nn.Linear` layer: a list of weight rows and a bias vector.
`torch.nn.Linear(in_f, out_f)` has `out_f` weight rows and `out_f` biases. -/
structure Linear where
  weight : List Vec
  bias : Vec

/-- Applying a linear layer: each output component is the dot product of a
weight row with the input plus the matching bias entry. -/
def Linear.apply (l : Linear) (x : Vec) : Vec :=
  List.zipWith (fun w b => dot w x + b) l.weight l.bias

/-- The default `epsilon=0.000001` argument of `softmax_masked`, passed
explicitly at every call site of the embedding. -/
def softmaxEpsilon : ℚ := 1/1000000

/-- `softmax_masked(inputs, mask, dim=1, epsilon=0.000001)` from the
notebook, on one batch row (`dim=1` is the position dimension of a
`(batch, seq_len)` tensor, i.e. the whole row here):

    inputs_exp = torch.exp(inputs)
    inputs_exp = inputs_exp * mask.float()
    inputs_exp_sum = inputs_exp.sum(dim=dim)
    inputs_attention = inputs_exp / (inputs_exp_sum.unsqueeze(dim) + epsilon)

`exp` is the real exponential, kept abstract (see the file docstring). -/
def softmax_masked (exp : ℚ → ℚ) (inputs mask : List ℚ) (epsilon : ℚ) : List ℚ :=
  let inputs_exp := inputs.map exp
  let inputs_exp_masked := List.zipWith (· * ·) inputs_exp mask
  let inputs_exp_sum := inputs_exp_masked.sum
  inputs_exp_masked.map (fun x => x / (inputs_exp_sum + epsilon))

/-- The masked exponential sum `inputs_exp_sum` computed inside
`softmax_masked`, named so theorems can speak about the denominator. -/
def maskedExpSum (exp : ℚ → ℚ) (inputs mask : List ℚ) : ℚ :=
  (List.zipWith (· * ·) (inputs.map exp) mask).sum

/-- The constant-one function on ℚ.  It is positive everywhere and agrees
with the real exponential at the point `0` (`e^0 = 1` exactly), so it is a
faithful stand-in for `torch.exp` on concrete score vectors whose entries
are all `0`. -/
def oneFun : ℚ → ℚ := fun _ => 1

/-- Index of the first maximum of a list: `tensor.argmax(dim=1)` on one
batch row (`torch.argmax` returns the first maximal index).  On the empty
list (never produced by the notebook, whose logits have `vocab_size ≥ 1`
entries) it returns 0. -/
def argmaxIdx : List ℚ → ℕ
  | [] => 0
  | [_] => 0
  | x :: y :: ys =>
    if x < (y :: ys).getD (argmaxIdx (y :: ys)) 0 then argmaxIdx (y :: ys) + 1 else 0

/-- `torch.nn.GRU(embedding_size, hidden_size, batch_first=True)` applied
to one batch row: the recurrence `h_t = cell(x_t, h_(t-1))`, returning one
hidden state per input position.  The gate equations inside the cell are a
library primitive, abstracted as the `cell` parameter (torch's default
initial hidden state, all zeros, is supplied by `encode`). -/
def gruOutputs (cell : Vec → Vec → Vec) : Vec → List Vec → List Vec
  | _, [] => []
  | h, x :: xs => cell x h :: gruOutputs cell (cell x h) xs

/-- The `Seq2SeqAttentionModel` of the notebook: its scalar constructor
arguments, its learned weights, and the two transcendental library
functions it calls (`torch.exp` via `softmax_masked`, and `torch.tanh`),
kept abstract.  `embedding` is the `torch.nn.Embedding` lookup table as a
function from token id to embedding row; `encoderCell`/`decoderCell` are
the `torch.nn.GRU`/`torch.nn.GRUCell` step functions; `attention_reduce`
is `torch.nn.Linear(hidden_size, 1, bias=False)`, i.e. a single weight
row. -/
structure Seq2SeqAttentionModel where
  vocab_size : ℕ
  hidden_size : ℕ
  teacher_forcing : ℚ
  max_len : ℕ
  start_index : ℕ
  end_index : ℕ
  pad_index : ℕ
  embedding : ℕ → Vec
  encoderCell : Vec → Vec → Vec
  decoderCell : Vec → Vec → Vec
  attention_decoder : Linear
  attention_encoder : Linear
  attention_reduce : Vec
  decoder_hidden_combine : Linear
  decoder_projection : Linear
  exp : ℚ → ℚ
  tanh : ℚ → ℚ

/-- `Seq2SeqAttentionModel.encode` on one batch row:

    inputs_mask = (inputs != self.pad_index).long()
    inputs_emb = self.embedding(inputs)
    outputs, h = self.encoder(inputs_emb)
    return outputs, inputs_mask

(`inputs_lengths` is computed in the source but unused by this model). -/
def Seq2SeqAttentionModel.encode (m : Seq2SeqAttentionModel) (inputs : List ℕ) :
    List Vec × List ℚ :=
  let inputs_mask : List ℚ := inputs.map (fun t => if t ≠ m.pad_index then 1 else 0)
  let inputs_emb := inputs.map m.embedding
  let outputs := gruOutputs m.encoderCell (List.replicate m.hidden_size 0) inputs_emb
  (outputs, inputs_mask)

/-- The raw (pre-softmax) attention scores of one decoding step:

    att_enc = self.attention_encoder(encoder_hiddens)
    att_dec = self.attention_decoder(decoder_hidden)
    att = torch.tanh(att_enc + att_dec.unsqueeze(1))
    att_reduced = self.attention_reduce(att).squeeze(-1) -/
def attLogits (m : Seq2SeqAttentionModel) (encoder_hiddens : List Vec)
    (decoder_hidden : Vec) : List ℚ :=
  let att_enc := encoder_hiddens.map m.attention_encoder.apply
  let att_dec := m.attention_decoder.apply decoder_hidden
  let att := att_enc.map (fun v => (vadd v att_dec).map m.tanh)
  att.map (fun v => dot m.attention_reduce v)

/-- The normalized attention distribution of one decoding step:
`att_normazlied = softmax_masked(att_reduced, inputs_mask)` (with the
default `epsilon`). -/
def attWeights (m : Seq2SeqAttentionModel) (encoder_hiddens : List Vec)
    (inputs_mask : List ℚ) (decoder_hidden : Vec) : List ℚ :=
  softmax_masked m.exp (attLogits m encoder_hiddens decoder_hidden)
    inputs_mask softmaxEpsilon

/-- `torch.sum(encoder_hiddens * att_normazlied.unsqueeze(-1), dim=1)` on
one batch row: the attention-weighted sum of the encoder hidden states,
a vector of length `h`. -/
def weightedSum (h : ℕ) (ws : List ℚ) (vs : List Vec) : Vec :=
  (List.zipWith smul ws vs).foldr vadd (List.replicate h 0)

/-- The loop state of `decode`, for one batch row: the current decoder
hidden state, the token id that will be embedded and fed at the next step
(`decoder_inputs`), and the list of per-step output logits accumulated so
far (`outputs_logits`). -/
structure DecState where
  decoder_hidden : Vec
  decoder_inputs : ℕ
  outputs_logits : List (List ℚ)

/-- One iteration of the `for i in range(self.max_len)` loop of
`Seq2SeqAttentionModel.decode`.  `draw` is the `np.random.rand()` value of
this iteration, treated as an input; `targets`, when present, maps a step
index to the ground-truth target token of that step (column `i` of the
`targets` tensor).  The Python guard
`np.random.rand() < self.teacher_forcing and targets is not None`
selects the ground-truth branch exactly when targets are present and the
draw is strictly below the rate. -/
def Seq2SeqAttentionModel.decodeStep (m : Seq2SeqAttentionModel)
    (encoder_hiddens : List Vec) (inputs_mask : List ℚ)
    (targets : Option (ℕ → ℕ)) (draw : ℚ) (i : ℕ) (s : DecState) : DecState :=
  let decoder_inputs_emb := m.embedding s.decoder_inputs
  let att_normazlied := attWeights m encoder_hiddens inputs_mask s.decoder_hidden
  let decoder_hidden_att := weightedSum m.hidden_size att_normazlied encoder_hiddens
  let decoder_hidden_combined :=
    m.decoder_hidden_combine.apply (s.decoder_hidden ++ decoder_hidden_att)
  let decoder_hidden := m.decoderCell decoder_inputs_emb decoder_hidden_combined
  let decoder_output_logit := m.decoder_projection.apply decoder_hidden
  let decoder_inputs :=
    match targets with
    | some tgt => if draw < m.teacher_forcing then tgt i else argmaxIdx decoder_output_logit
    | none => argmaxIdx decoder_output_logit
  ⟨decoder_hidden, decoder_inputs, s.outputs_logits ++ [decoder_output_logit]⟩

/-- The state entering the loop of `Seq2SeqAttentionModel.decode`:

    decoder_hidden = torch.zeros_like(encoder_hiddens[:,0,:])
    decoder_inputs = torch.full_like(decoder_hidden[:, 0], self.start_index).long() -/
def Seq2SeqAttentionModel.decodeInit (m : Seq2SeqAttentionModel) : DecState :=
  ⟨List.replicate m.hidden_size 0, m.start_index, []⟩

/-- The loop state of `Seq2SeqAttentionModel.decode` after `n` iterations,
with the per-iteration `np.random.rand()` values given by `draws`. -/
def Seq2SeqAttentionModel.decodeStates (m : Seq2SeqAttentionModel)
    (encoder_hiddens : List Vec) (inputs_mask : List ℚ)
    (targets : Option (ℕ → ℕ)) (draws : ℕ → ℚ) : ℕ → DecState
  | 0 => m.decodeInit
  | i + 1 =>
    m.decodeStep encoder_hiddens inputs_mask targets (draws i) i
      (m.decodeStates encoder_hiddens inputs_mask targets draws i)

/-- `Seq2SeqAttentionModel.decode` on one batch row: run the loop for
exactly `max_len` iterations and return the stacked per-step logits. -/
def Seq2SeqAttentionModel.decode (m : Seq2SeqAttentionModel)
    (encoder_hiddens : List Vec) (inputs_mask : List ℚ)
    (targets : Option (ℕ → ℕ)) (draws : ℕ → ℚ) : List (List ℚ) :=
  (m.decodeStates encoder_hiddens inputs_mask targets draws m.max_len).outputs_logits

/-- `Seq2SeqAttentionModel.forward` on one batch row:

    encoder_hiddens, inputs_mask = self.encode(inputs)
    outputs_logits = self.decode(encoder_hiddens, inputs_mask, targets) -/
def Seq2SeqAttentionModel.forward (m : Seq2SeqAttentionModel)
    (inputs : List ℕ) (targets : Option (ℕ → ℕ)) (draws : ℕ → ℚ) : List (List ℚ) :=
  let enc := m.encode inputs
  m.decode enc.1 enc.2 targets draws

/-- `Seq2SeqAttentionModel.forward` on a whole batch.  Every tensor
operation of the notebook acts row-wise on the batch dimension, and the
single per-step `np.random.rand()` draw is shared by all rows, so the
batched forward pass is `forward` mapped over the rows (paired with their
target rows when targets are given). -/
def Seq2SeqAttentionModel.forwardBatch (m : Seq2SeqAttentionModel)
    (inputs : List (List ℕ)) (targets : Option (List (ℕ → ℕ)))
    (draws : ℕ → ℚ) : List (List (List ℚ)) :=
  match targets with
  | none => inputs.map (fun row => m.forward row none draws)
  | some ts => List.zipWith (fun row t => m.forward row (some t) draws) inputs ts

/-- The plain (attention-free) `Seq2SeqModel` of the notebook: the fields
its `decode` loop reads.  As for the attention model, `embedding` is the
lookup table and `decoderCell` the `torch.nn.GRUCell` step function. -/
structure Seq2SeqModel where
  vocab_size : ℕ
  hidden_size : ℕ
  teacher_forcing : ℚ
  max_len : ℕ
  start_index : ℕ
  end_index : ℕ
  pad_index : ℕ
  embedding : ℕ → Vec
  encoderCell : Vec → Vec → Vec
  decoderCell : Vec → Vec → Vec
  decoder_projection : Linear

/-- One iteration of the `for i in range(self.max_len)` loop of
`Seq2SeqModel.decode`:

    decoder_inputs_emb = self.embedding(decoder_inputs)
    decoder_hidden = self.decoder(decoder_inputs_emb, decoder_hidden)
    decoder_output_logit = self.decoder_projection(decoder_hidden)
    if np.random.rand() < self.teacher_forcing and targets is not None:
        decoder_inputs = targets[:, i]
    else:
        decoder_inputs = decoder_output_logit.argmax(dim=1).long() -/
def Seq2SeqModel.decodeStep (m : Seq2SeqModel) (targets : Option (ℕ → ℕ))
    (draw : ℚ) (i : ℕ) (s : DecState) : DecState :=
  let decoder_inputs_emb := m.embedding s.decoder_inputs
  let decoder_hidden := m.decoderCell decoder_inputs_emb s.decoder_hidden
  let decoder_output_logit := m.decoder_projection.apply decoder_hidden
  let decoder_inputs :=
    match targets with
    | some tgt => if draw < m.teacher_forcing then tgt i else argmaxIdx decoder_output_logit
    | none => argmaxIdx decoder_output_logit
  ⟨decoder_hidden, decoder_inputs, s.outputs_logits ++ [decoder_output_logit]⟩

/-- The loop state of `Seq2SeqModel.decode` after `n` iterations.  The
initial hidden state is the encoder summary passed to `decode`, and the
first input token is `start_index`. -/
def Seq2SeqModel.decodeStates (m : Seq2SeqModel) (decoder_hidden : Vec)
    (targets : Option (ℕ → ℕ)) (draws : ℕ → ℚ) : ℕ → DecState
  | 0 => ⟨decoder_hidden, m.start_index, []⟩
  | i + 1 => m.decodeStep targets (draws i) i (m.decodeStates decoder_hidden targets draws i)

/-- `Seq2SeqModel.decode` on one batch row. -/
def Seq2SeqModel.decode (m : Seq2SeqModel) (decoder_hidden : Vec)
    (targets : Option (ℕ → ℕ)) (draws : ℕ → ℚ) : List (List ℚ) :=
  (m.decodeStates decoder_hidden targets draws m.max_len).outputs_logits

/-- A small concrete `Seq2SeqAttentionModel` instance (hidden size 1,
vocabulary of 2 tokens, 2 decoding steps, pad id 0) used to evaluate the
theorems on concrete inputs. -/
def toyModel : Seq2SeqAttentionModel where
  vocab_size := 2
  hidden_size := 1
  teacher_forcing := 1/2
  max_len := 2
  start_index := 1
  end_index := 1
  pad_index := 0
  embedding := fun t => [(t : ℚ)]
  encoderCell := fun x h => vadd x h
  decoderCell := fun x h => vadd x h
  attention_decoder := ⟨[[1]], [0]⟩
  attention_encoder := ⟨[[1]], [0]⟩
  attention_reduce := [1]
  decoder_hidden_combine := ⟨[[1, 1]], [0]⟩
  decoder_projection := ⟨[[1], [2]], [0, 0]⟩
  exp := oneFun
  tanh := fun x => x

/-- Shape facts guaranteed by the constructor of `Seq2SeqAttentionModel`:
`decoder_projection = torch.nn.Linear(hidden_size, vocab_size)` carries
`vocab_size` weight rows and `vocab_size` bias entries. -/
structure Seq2SeqAttentionModel.WF (m : Seq2SeqAttentionModel) : Prop where
  proj_weight : m.decoder_projection.weight.length = m.vocab_size
  proj_bias : m.decoder_projection.bias.length = m.vocab_size

/-- `Vocab.END_TOKEN`. -/
def Vocab.END_TOKEN : String := "<end>"

/-- `Vocab.START_TOKEN`. -/
def Vocab.START_TOKEN : String := "<start>"

/-- `Vocab.PAD_TOKEN`. -/
def Vocab.PAD_TOKEN : String := "<pad>"

/-- `Vocab.UNK_TOKEN`. -/
def Vocab.UNK_TOKEN : String := "<unk>"

/-- One row of the CSV file written by `Vocab.save` (fields `token`,
`counts`, `is_special`).  The CSV encoding/escaping itself is done by the
Python `csv` library and is abstracted: `save` and `load` exchange
structured rows. -/
structure VocabRow where
  token : String
  counts : ℕ
  is_special : Bool

/-- The `Vocab` class state that `save`/`load` exchange: `token2id` is the
insertion-ordered dict as an association list, `token_counts` is the
`Counter` as a total function (a `Counter` returns 0 for absent keys), and
`special_tokens` is the special-token list. -/
structure Vocab where
  special_tokens : List String
  token2id : List (String × ℕ)
  token_counts : String → ℕ

/-- Dict lookup `self.token2id[token]` / membership `token in self`:
keys of a Python dict are unique, so the first match is the match. -/
def Vocab.getId (v : Vocab) (t : String) : Option ℕ :=
  (v.token2id.find? (fun p => p.1 == t)).map Prod.snd

/-- `_rebuild_id2token`: `{i: t for t, i in self.token2id.items()}`.  A
dict comprehension lets later entries overwrite earlier ones, so the
lookup takes the last matching pair. -/
def Vocab.id2token (v : Vocab) (i : ℕ) : Option String :=
  (v.token2id.reverse.find? (fun p => p.2 == i)).map Prod.fst

/-- `Vocab.save`: one row per id `idx` in `range(len(self.token2id))`,
holding `self.id2token[idx]`, its count, and whether it is special.  A
missing id raises `KeyError` in Python; the embedding returns `none`. -/
def Vocab.save (v : Vocab) : Option (List VocabRow) :=
  (List.range v.token2id.length).mapM (fun idx =>
    (v.id2token idx).map (fun token =>
      ⟨token, v.token_counts token, decide (token ∈ v.special_tokens)⟩))

/-- `Vocab.load`: the `i`-th row's token gets id `i`, counts come from the
rows (for a repeated token a Python dict keeps the last row; the rows
written by `save` from a well-formed vocab have pairwise distinct tokens),
and the special tokens are the flagged rows in row order. -/
def Vocab.load (rows : List VocabRow) : Vocab where
  special_tokens := (rows.filter (fun r => r.is_special)).map (fun r => r.token)
  token2id := rows.enum.map (fun p => (p.2.token, p.1))
  token_counts := fun t =>
    ((rows.reverse.find? (fun r => r.token == t)).map (fun r => r.counts)).getD 0

/-- Invariants of every `Vocab` object the notebook's code constructs
(via `__init__`/`add_document`/`add_documents`, `prune_vocab`, or `load`):
tokens receive ids in insertion order (`token2id[token] = len(token2id)`
on insertion; `prune_vocab` and `load` rebuild ids as `0, 1, 2, …` in
enumeration order), so the `k`-th dict entry carries id `k`; the special
tokens are inserted first (by `__init__`) or re-assigned ids `0..k-1` in
list order (by `prune_vocab`), so enumerating tokens in id order and
keeping the special ones yields exactly `special_tokens`; and
`token_counts` only counts tokens present in `token2id` (counts and ids
are updated together, and `prune_vocab` pops the counts of every deleted
token). -/
structure Vocab.WF (v : Vocab) : Prop where
  ids_ordered : ∀ k (h : k < v.token2id.length), (v.token2id.get ⟨k, h⟩).2 = k
  specials_in_id_order :
    (v.token2id.map Prod.fst).filter (fun t => decide (t ∈ v.special_tokens)) =
      v.special_tokens
  counts_dom : ∀ t, (∀ p ∈ v.token2id, p.1 ≠ t) → v.token_counts t = 0

/-- The row `Vocab.save` writes for a token. -/
def saveRow (v : Vocab) (t : String) : VocabRow :=
  ⟨t, v.token_counts t, decide (t ∈ v.special_tokens)⟩

/-- The fields of `SubtitlesDialogDataset` that its item pipeline
(`_pad_sentnece`, `_process_sent`, `__getitem__`) reads: the tokenized
lines, the vocabulary, and the fixed output length `max_len`. -/
structure SubtitlesDialogDataset where
  lines : List (List String)
  vocab : Vocab
  max_len : ℕ

/-- `_pad_sentnece` (sic):

    sent = sent[:self.max_len - 1] + [Vocab.END_TOKEN,]
    nb_pad = self.max_len - len(sent)
    sent = sent + [Vocab.PAD_TOKEN,] * nb_pad

For `max_len ≥ 1` (the class is always built with `max_len ≥ 1`; the
default is 50) the Python slice `sent[:max_len - 1]` is `List.take
(max_len - 1)`, and `nb_pad` is never negative, matching truncated ℕ
subtraction. -/
def SubtitlesDialogDataset._pad_sentnece (d : SubtitlesDialogDataset)
    (sent : List String) : List String :=
  let sent2 := sent.take (d.max_len - 1) ++ [Vocab.END_TOKEN]
  sent2 ++ List.replicate (d.max_len - sent2.length) Vocab.PAD_TOKEN

/-- `_process_sent`: pad, then map each token to
`self.vocab[t] if t in self.vocab else self.vocab[Vocab.UNK_TOKEN]`.
A token absent from the vocabulary when `<unk>` is also absent raises
`KeyError` in Python; the embedding returns `none` in that case. -/
def SubtitlesDialogDataset._process_sent (d : SubtitlesDialogDataset)
    (sent : List String) : Option (List ℕ) :=
  (d._pad_sentnece sent).mapM (fun t =>
    match d.vocab.getId t with
    | some i => some i
    | none => d.vocab.getId Vocab.UNK_TOKEN)

/-- `__getitem__(index)`: process line `index` as query and line
`index + 1` as response.  Out-of-range indices raise in Python; the
embedding returns `none`. -/
def SubtitlesDialogDataset.getitem (d : SubtitlesDialogDataset) (index : ℕ) :
    Option (List ℕ × List ℕ) := do
  let query ← d.lines[index]?
  let response ← d.lines[index + 1]?
  let q ← d._process_sent query
  let r ← d._process_sent response
  return (q, r)

/-- A small concrete `Vocab` with the four special tokens of the notebook
plus one ordinary token, in insertion (= id) order. -/
def toyVocab : Vocab where
  special_tokens := ["<pad>", "<start>", "<end>", "<unk>"]
  token2id := [("<pad>", 0), ("<start>", 1), ("<end>", 2), ("<unk>", 3), ("hi", 4)]
  token_counts := fun t =>
    if t = "hi" then 3 else if t ∈ ["<pad>", "<start>", "<end>", "<unk>"] then 1 else 0

/-- A small concrete `SubtitlesDialogDataset` over `toyVocab` (its second
line's token list is shorter than `max_len - 1`, the first one longer than
nothing; `"zz"` is out of vocabulary). -/
def toyDataset : SubtitlesDialogDataset where
  lines := [["hi", "zz"], ["hi"]]
  vocab := toyVocab
  max_len := 4

-- Theorems.

theorem length_softmax_masked (exp : ℚ → ℚ) (inputs mask : List ℚ) (epsilon : ℚ) :
    (softmax_masked exp inputs mask epsilon).length = min inputs.length mask.length := by
  simp [softmax_masked]

theorem softmax_masked_getD (exp : ℚ → ℚ) (inputs mask : List ℚ) (epsilon : ℚ)
    (j : ℕ) (h1 : j < inputs.length) (h2 : j < mask.length) :
    (softmax_masked exp inputs mask epsilon).getD j 0 =
      exp (inputs.getD j 0) * mask.getD j 0 /
        (maskedExpSum exp inputs mask + epsilon) := by
  have hlen : j < (List.zipWith (· * ·) (inputs.map exp) mask).length := by
    simp [h1, h2]
  rw [softmax_masked]
  simp only [maskedExpSum]
  rw [List.getD_eq_getElem _ _ (by simpa using hlen)]
  rw [List.getElem_map]
  rw [List.getElem_zipWith]
  rw [List.getElem_map]
  rw [List.getD_eq_getElem _ _ h1, List.getD_eq_getElem _ _ h2]

theorem sum_map_div (l : List ℚ) (d : ℚ) :
    (l.map (fun x => x / d)).sum = l.sum / d := by
  induction l with
  | nil => simp
  | cons a l ih => simp [ih, add_div]

theorem getD_le_sum_of_nonneg (l : List ℚ) (h : ∀ x ∈ l, 0 ≤ x)
    (j : ℕ) (hj : j < l.length) : l.getD j 0 ≤ l.sum := by
  induction l generalizing j with
  | nil => simp at hj
  | cons a l ih =>
    have hl : 0 ≤ l.sum := List.sum_nonneg (fun x hx => h x (List.mem_cons_of_mem _ hx))
    have ha : 0 ≤ a := h a (List.mem_cons_self _ _)
    cases j with
    | zero =>
      simp only [List.getD_cons_zero, List.sum_cons]
      linarith
    | succ j =>
      have hih := ih (fun x hx => h x (List.mem_cons_of_mem _ hx)) j (by simpa using hj)
      simp only [List.getD_cons_succ, List.sum_cons]
      linarith

theorem maskedExpSum_nonneg (exp : ℚ → ℚ) (hexp : ∀ x, 0 < exp x)
    (inputs mask : List ℚ) (hmask : ∀ x ∈ mask, 0 ≤ x) :
    0 ≤ maskedExpSum exp inputs mask := by
  apply List.sum_nonneg
  intro x hx
  obtain ⟨i, hi, rfl⟩ := List.mem_iff_getElem.mp hx
  rw [List.getElem_zipWith, List.getElem_map]
  exact mul_nonneg (le_of_lt (hexp _)) (hmask _ (List.getElem_mem _))

theorem maskedExpSum_pos (exp : ℚ → ℚ) (hexp : ∀ x, 0 < exp x)
    (inputs mask : List ℚ) (hmask : ∀ x ∈ mask, 0 ≤ x)
    (hlen : mask.length = inputs.length)
    (j : ℕ) (hj : j < mask.length) (hj1 : mask.getD j 0 = 1) :
    0 < maskedExpSum exp inputs mask := by
  have hj' : j < inputs.length := hlen ▸ hj
  have hterm : (0 : ℚ) < exp (inputs.getD j 0) * mask.getD j 0 := by
    rw [hj1, mul_one]; exact hexp _
  have hnn : ∀ x ∈ List.zipWith (· * ·) (inputs.map exp) mask, (0 : ℚ) ≤ x := by
    intro x hx
    obtain ⟨i, hi, rfl⟩ := List.mem_iff_getElem.mp hx
    rw [List.getElem_zipWith, List.getElem_map]
    exact mul_nonneg (le_of_lt (hexp _)) (hmask _ (List.getElem_mem _))
  have hjz : j < (List.zipWith (· * ·) (inputs.map exp) mask).length := by
    simp [hj, hj']
  have hle := getD_le_sum_of_nonneg _ hnn j hjz
  rw [List.getD_eq_getElem _ _ hjz, List.getElem_zipWith, List.getElem_map] at hle
  rw [List.getD_eq_getElem _ _ hj', List.getD_eq_getElem _ _ hj] at hterm
  calc (0 : ℚ) < _ := hterm
    _ ≤ _ := hle

theorem softmax_masked_sum (exp : ℚ → ℚ) (inputs mask : List ℚ) (epsilon : ℚ) :
    (softmax_masked exp inputs mask epsilon).sum =
      maskedExpSum exp inputs mask / (maskedExpSum exp inputs mask + epsilon) := by
  simp only [softmax_masked, maskedExpSum]
  exact sum_map_div _ _

/-- C2, counterexample.  The claim asserts that for every input vector and
every mask with at least one position set to 1, the weights returned by
`softmax_masked` sum to exactly 1.  It fails already for the score vector
`[0]` with mask `[1]` and the default `epsilon = 0.000001`: the real
exponential satisfies `e^0 = 1` exactly (so `oneFun` computes the same
value as `torch.exp` at this input), the masked exponential sum is `1`,
and the single weight is `1 / (1 + epsilon) = 1000000/1000001 ≠ 1`. -/
theorem softmax_masked_sum_ne_one_cex :
    (softmax_masked oneFun [0] [1] softmaxEpsilon).sum ≠ 1 := by
  norm_num [softmax_masked, oneFun, softmaxEpsilon]

/-- C2, amended.  For every positive exponential model, every input vector
and every 0/1 mask of the same length with at least one position set to 1,
the weights returned by `softmax_masked` are non-negative and sum to
`S / (S + epsilon)` where `S` is the masked exponential sum — a total
strictly between 0 and 1 (it is not exactly 1, because of the `epsilon`
added to the denominator). -/
theorem softmax_masked_normalized (exp : ℚ → ℚ) (hexp : ∀ x, 0 < exp x)
    (inputs mask : List ℚ) (epsilon : ℚ) (heps : 0 < epsilon)
    (hlen : mask.length = inputs.length)
    (hmask : ∀ x ∈ mask, x = 0 ∨ x = 1)
    (j : ℕ) (hj : j < mask.length) (hj1 : mask.getD j 0 = 1) :
    (∀ w ∈ softmax_masked exp inputs mask epsilon, 0 ≤ w) ∧
    (softmax_masked exp inputs mask epsilon).sum =
      maskedExpSum exp inputs mask / (maskedExpSum exp inputs mask + epsilon) ∧
    0 < (softmax_masked exp inputs mask epsilon).sum ∧
    (softmax_masked exp inputs mask epsilon).sum < 1 := by
  have hmask' : ∀ x ∈ mask, (0 : ℚ) ≤ x := by
    intro x hx
    rcases hmask x hx with h | h <;> simp [h]
  have hS : 0 < maskedExpSum exp inputs mask :=
    maskedExpSum_pos exp hexp inputs mask hmask' hlen j hj hj1
  have hden : 0 < maskedExpSum exp inputs mask + epsilon := by linarith
  refine ⟨?_, softmax_masked_sum exp inputs mask epsilon, ?_, ?_⟩
  · intro w hw
    simp only [softmax_masked] at hw
    obtain ⟨x, hx, rfl⟩ := List.mem_map.mp hw
    obtain ⟨i, hi, rfl⟩ := List.mem_iff_getElem.mp hx
    rw [List.getElem_zipWith, List.getElem_map]
    refine div_nonneg ?_ ?_
    · exact mul_nonneg (le_of_lt (hexp _)) (hmask' _ (List.getElem_mem _))
    · exact le_of_lt hden
  · rw [softmax_masked_sum]
    exact div_pos hS hden
  · rw [softmax_masked_sum]
    rw [div_lt_one hden]
    linarith

/-- C8.  `softmax_masked` is total: for every positive exponential model and
every non-negative mask, the denominator `inputs_exp_sum + epsilon` is
strictly positive (the `epsilon` makes division by zero impossible, so
there is no error case for any mask), and when the mask is all zeros — an
entirely padded row — the returned weight vector is all zeros. -/
theorem softmax_masked_total_on_zero_mask (exp : ℚ → ℚ) (hexp : ∀ x, 0 < exp x)
    (inputs mask : List ℚ) (epsilon : ℚ) (heps : 0 < epsilon)
    (hlen : mask.length = inputs.length)
    (hmask : ∀ x ∈ mask, 0 ≤ x) :
    0 < maskedExpSum exp inputs mask + epsilon ∧
    ((∀ x ∈ mask, x = 0) →
      softmax_masked exp inputs mask epsilon = List.replicate inputs.length 0) := by
  constructor
  · have := maskedExpSum_nonneg exp hexp inputs mask hmask
    linarith
  · intro hz
    refine List.eq_replicate_iff.mpr ⟨?_, ?_⟩
    · rw [length_softmax_masked, hlen]; simp
    · intro b hb
      simp only [softmax_masked] at hb
      obtain ⟨x, hx, rfl⟩ := List.mem_map.mp hb
      obtain ⟨i, hi, rfl⟩ := List.mem_iff_getElem.mp hx
      rw [List.getElem_zipWith, hz _ (List.getElem_mem _), mul_zero, zero_div]

/-- C8, witness: on the score vector `[5, 7]` with the all-zero mask
`[0, 0]` (a fully padded row), `softmax_masked` returns `[0, 0]`. -/
theorem softmax_masked_total_on_zero_mask_witness :
    softmax_masked oneFun [5, 7] [0, 0] softmaxEpsilon = [0, 0] := by
  have h := softmax_masked_total_on_zero_mask oneFun (fun _ => one_pos) [5, 7] [0, 0]
    softmaxEpsilon (by norm_num [softmaxEpsilon]) rfl
    (by intro x hx; simp at hx; simp [hx])
  simpa using h.2 (by intro x hx; simpa using hx)

/-- C2, witness: the amended theorem instantiated at the score vector `[0]`
with mask `[1]`: the weight total is strictly between 0 and 1. -/
theorem softmax_masked_normalized_witness :
    0 < (softmax_masked oneFun [0] [1] softmaxEpsilon).sum ∧
    (softmax_masked oneFun [0] [1] softmaxEpsilon).sum < 1 := by
  have h := softmax_masked_normalized oneFun (fun _ => one_pos) [0] [1] softmaxEpsilon
    (by norm_num [softmaxEpsilon]) rfl
    (fun x hx => Or.inr (by simpa using hx)) 0 (by simp) rfl
  exact ⟨h.2.2.1, h.2.2.2⟩

theorem argmaxIdx_lt_length (xs : List ℚ) (h : xs ≠ []) :
    argmaxIdx xs < xs.length := by
  induction xs with
  | nil => simp at h
  | cons x xs ih =>
    cases xs with
    | nil => simp [argmaxIdx]
    | cons y ys =>
      have hlt := ih (by simp)
      simp only [argmaxIdx]
      split
      · simpa using Nat.succ_lt_succ hlt
      · simp

theorem argmaxIdx_is_max (xs : List ℚ) :
    ∀ i < xs.length, xs.getD i 0 ≤ xs.getD (argmaxIdx xs) 0 := by
  induction xs with
  | nil => intro i hi; simp at hi
  | cons x xs ih =>
    intro i hi
    cases xs with
    | nil =>
      cases i with
      | zero => simp [argmaxIdx]
      | succ i => simp at hi
    | cons y ys =>
      simp only [argmaxIdx]
      by_cases hlt : x < (y :: ys).getD (argmaxIdx (y :: ys)) 0
      · rw [if_pos hlt]
        cases i with
        | zero => simpa using le_of_lt hlt
        | succ i =>
          simp only [List.getD_cons_succ]
          exact ih i (by simpa using hi)
      · rw [if_neg hlt]
        cases i with
        | zero => simp
        | succ i =>
          simp only [List.getD_cons_succ, List.getD_cons_zero]
          exact le_trans (ih i (by simpa using hi)) (not_lt.mp hlt)

theorem length_gruOutputs (cell : Vec → Vec → Vec) (h : Vec) (xs : List Vec) :
    (gruOutputs cell h xs).length = xs.length := by
  induction xs generalizing h with
  | nil => rfl
  | cons x xs ih => simp [gruOutputs, ih]

theorem Seq2SeqAttentionModel.decodeStates_logits_concat
    (m : Seq2SeqAttentionModel) (eh : List Vec) (mask : List ℚ)
    (targets : Option (ℕ → ℕ)) (draws : ℕ → ℚ) (i : ℕ) :
    (m.decodeStates eh mask targets draws (i+1)).outputs_logits =
      (m.decodeStates eh mask targets draws i).outputs_logits ++
        [m.decoder_projection.apply
          ((m.decodeStates eh mask targets draws (i+1)).decoder_hidden)] := by
  rfl

theorem Seq2SeqAttentionModel.decodeStates_logits_length
    (m : Seq2SeqAttentionModel) (eh : List Vec) (mask : List ℚ)
    (targets : Option (ℕ → ℕ)) (draws : ℕ → ℚ) (n : ℕ) :
    ((m.decodeStates eh mask targets draws n).outputs_logits).length = n := by
  induction n with
  | zero => rfl
  | succ n ih =>
    rw [Seq2SeqAttentionModel.decodeStates_logits_concat]
    simp [ih]

theorem Seq2SeqModel.plain_logits_concat
    (m : Seq2SeqModel) (h0 : Vec) (targets : Option (ℕ → ℕ)) (draws : ℕ → ℚ) (i : ℕ) :
    (m.decodeStates h0 targets draws (i+1)).outputs_logits =
      (m.decodeStates h0 targets draws i).outputs_logits ++
        [m.decoder_projection.apply ((m.decodeStates h0 targets draws (i+1)).decoder_hidden)] := by
  rfl

theorem softmax_masked_zero_at (exp : ℚ → ℚ) (inputs mask : List ℚ) (epsilon : ℚ)
    (j : ℕ) (h1 : j < inputs.length) (h2 : j < mask.length)
    (hm : mask.getD j 0 = 0) :
    (softmax_masked exp inputs mask epsilon).getD j 0 = 0 := by
  rw [softmax_masked_getD exp inputs mask epsilon j h1 h2, hm, mul_zero, zero_div]

theorem length_attLogits (m : Seq2SeqAttentionModel) (eh : List Vec) (dh : Vec) :
    (attLogits m eh dh).length = eh.length := by
  simp [attLogits]

theorem Seq2SeqAttentionModel.encode_fst_length (m : Seq2SeqAttentionModel)
    (inputs : List ℕ) : (m.encode inputs).1.length = inputs.length := by
  simp [Seq2SeqAttentionModel.encode, length_gruOutputs]

theorem Seq2SeqAttentionModel.encode_snd_length (m : Seq2SeqAttentionModel)
    (inputs : List ℕ) : (m.encode inputs).2.length = inputs.length := by
  simp [Seq2SeqAttentionModel.encode]

theorem Seq2SeqAttentionModel.encode_mask_getD (m : Seq2SeqAttentionModel)
    (inputs : List ℕ) (j : ℕ) (hj : j < inputs.length) :
    (m.encode inputs).2.getD j 0 =
      if inputs.getD j 0 ≠ m.pad_index then 1 else 0 := by
  simp only [Seq2SeqAttentionModel.encode]
  rw [List.getD_eq_getElem _ _ (by simpa using hj), List.getElem_map,
    List.getD_eq_getElem _ _ hj]

/-- C1.  `softmax_masked` returns weight 0 at every position where the mask
is 0 (for every input vector, mask, epsilon and exponential model); and
consequently, at every decoding step `i` of `Seq2SeqAttentionModel.decode`
run on the encoding of `inputs`, the attention distribution places weight
0 on every padded position of `inputs` (every `j` with
`inputs[j] = pad_index`). -/
theorem attention_zero_on_padded (exp : ℚ → ℚ) (inputs mask : List ℚ)
    (epsilon : ℚ) (j : ℕ) (h1 : j < inputs.length) (h2 : j < mask.length)
    (hm : mask.getD j 0 = 0)
    (m : Seq2SeqAttentionModel) (tokens : List ℕ) (targets : Option (ℕ → ℕ))
    (draws : ℕ → ℚ) (jp : ℕ) (hjp : jp < tokens.length)
    (hpad : tokens.getD jp 0 = m.pad_index) (i : ℕ) :
    (softmax_masked exp inputs mask epsilon).getD j 0 = 0 ∧
    (attWeights m (m.encode tokens).1 (m.encode tokens).2
      ((m.decodeStates (m.encode tokens).1 (m.encode tokens).2
        targets draws i).decoder_hidden)).getD jp 0 = 0 := by
  refine ⟨softmax_masked_zero_at exp inputs mask epsilon j h1 h2 hm, ?_⟩
  have hmz : (m.encode tokens).2.getD jp 0 = 0 := by
    rw [m.encode_mask_getD tokens jp hjp, hpad]
    simp
  exact softmax_masked_zero_at _ _ _ _ jp
    (by rw [length_attLogits, m.encode_fst_length]; exact hjp)
    (by rw [m.encode_snd_length]; exact hjp) hmz

/-- C6.  `Seq2SeqAttentionModel.encode` returns one encoder hidden state
per input position, together with a mask of the same shape as the input
which is 1 exactly at positions whose token differs from `pad_index` and 0
at padded positions. -/
theorem encode_returns_states_and_mask (m : Seq2SeqAttentionModel)
    (inputs : List ℕ) (j : ℕ) (hj : j < inputs.length) :
    (m.encode inputs).1.length = inputs.length ∧
    (m.encode inputs).2.length = inputs.length ∧
    ((m.encode inputs).2.getD j 0 = 1 ↔ inputs.getD j 0 ≠ m.pad_index) ∧
    ((m.encode inputs).2.getD j 0 = 0 ↔ inputs.getD j 0 = m.pad_index) := by
  refine ⟨m.encode_fst_length inputs, m.encode_snd_length inputs, ?_, ?_⟩ <;>
    rw [m.encode_mask_getD inputs j hj] <;> by_cases h : inputs.getD j 0 = m.pad_index <;>
    simp [h]

/-- C1, witness: instantiated at the mask `[0]` for the standalone part,
and at the toy model on the input `[1, 0]` (whose position 1 is padding)
after one decoding step for the decoder part. -/
theorem attention_zero_on_padded_witness :
    (softmax_masked oneFun [3] [0] softmaxEpsilon).getD 0 0 = 0 ∧
    (attWeights toyModel (toyModel.encode [1, 0]).1 (toyModel.encode [1, 0]).2
      ((toyModel.decodeStates (toyModel.encode [1, 0]).1 (toyModel.encode [1, 0]).2
        none (fun _ => 0) 1).decoder_hidden)).getD 1 0 = 0 :=
  attention_zero_on_padded oneFun [3] [0] softmaxEpsilon 0 (by decide) (by decide)
    (by decide) toyModel [1, 0] none (fun _ => 0) 1 (by decide) (by decide) 1

/-- C6, witness: the toy model's `encode` on the input `[1, 0]` yields two
encoder states and the mask value 1 at the non-padded position 0. -/
theorem encode_returns_states_and_mask_witness :
    (toyModel.encode [1, 0]).1.length = 2 ∧
    ((toyModel.encode [1, 0]).2.getD 0 0 = 1 ↔ (1 : ℕ) ≠ toyModel.pad_index) :=
  ⟨(encode_returns_states_and_mask toyModel [1, 0] 0 (by decide)).1,
   by
    have h := (encode_returns_states_and_mask toyModel [1, 0] 0 (by decide)).2.2.1
    simpa using h⟩

/-- C3.  In every decoding step `i` of `Seq2SeqAttentionModel.decode` and
of `Seq2SeqModel.decode`, with the per-step uniform draw treated as an
input: if targets are provided and the draw is strictly below the
`teacher_forcing` rate, the token fed to the next step is the ground-truth
target at position `i`; otherwise it is the argmax over the vocabulary of
the current step's output logits (the last logits emitted so far).  The
first step's input is always the start token. -/
theorem decode_next_input_selection (m : Seq2SeqAttentionModel)
    (eh : List Vec) (mask : List ℚ) (targets : Option (ℕ → ℕ)) (draws : ℕ → ℚ)
    (i : ℕ) (p : Seq2SeqModel) (h0 : Vec) :
    (m.decodeStates eh mask targets draws 0).decoder_inputs = m.start_index ∧
    (m.decodeStates eh mask targets draws (i+1)).decoder_inputs =
      (match targets with
       | some tgt =>
         if draws i < m.teacher_forcing then tgt i
         else argmaxIdx
           (((m.decodeStates eh mask targets draws (i+1)).outputs_logits).getLastD [])
       | none => argmaxIdx
           (((m.decodeStates eh mask targets draws (i+1)).outputs_logits).getLastD [])) ∧
    (p.decodeStates h0 targets draws 0).decoder_inputs = p.start_index ∧
    (p.decodeStates h0 targets draws (i+1)).decoder_inputs =
      (match targets with
       | some tgt =>
         if draws i < p.teacher_forcing then tgt i
         else argmaxIdx
           (((p.decodeStates h0 targets draws (i+1)).outputs_logits).getLastD [])
       | none => argmaxIdx
           (((p.decodeStates h0 targets draws (i+1)).outputs_logits).getLastD [])) := by
  refine ⟨rfl, ?_, rfl, ?_⟩
  · cases targets with
    | none =>
      rw [Seq2SeqAttentionModel.decodeStates_logits_concat, List.getLastD_concat]
      rfl
    | some tgt =>
      rw [Seq2SeqAttentionModel.decodeStates_logits_concat, List.getLastD_concat]
      rfl
  · cases targets with
    | none =>
      rw [Seq2SeqModel.plain_logits_concat, List.getLastD_concat]
      rfl
    | some tgt =>
      rw [Seq2SeqModel.plain_logits_concat, List.getLastD_concat]
      rfl

/-- C4.  The stochastic decoding policy at the training/inference
boundary: when targets are provided, the ground-truth token is fed as the
next decoder input exactly when the step's uniform `[0,1)` draw is
strictly below `teacher_forcing` (so a uniform draw selects it with
probability exactly the rate); when targets are `None`, the whole decoding
state is independent of the value of `teacher_forcing`, and the decoder
always feeds back the argmax of its own current logits. -/
theorem teacher_forcing_policy (m : Seq2SeqAttentionModel) (eh : List Vec)
    (mask : List ℚ) (draws : ℕ → ℚ) (tgt : ℕ → ℕ) (i n : ℕ) (t1 t2 : ℚ) :
    ((m.decodeStates eh mask (some tgt) draws (i+1)).decoder_inputs =
      if draws i < m.teacher_forcing then tgt i
      else argmaxIdx
        (((m.decodeStates eh mask (some tgt) draws (i+1)).outputs_logits).getLastD [])) ∧
    ({m with teacher_forcing := t1}.decodeStates eh mask none draws n =
      {m with teacher_forcing := t2}.decodeStates eh mask none draws n) ∧
    ((m.decodeStates eh mask none draws (i+1)).decoder_inputs =
      argmaxIdx
        (((m.decodeStates eh mask none draws (i+1)).outputs_logits).getLastD [])) := by
  refine ⟨?_, ?_, ?_⟩
  · rw [Seq2SeqAttentionModel.decodeStates_logits_concat, List.getLastD_concat]
    rfl
  · induction n with
    | zero => rfl
    | succ n ih =>
      simp only [Seq2SeqAttentionModel.decodeStates]
      rw [ih]
      rfl
  · rw [Seq2SeqAttentionModel.decodeStates_logits_concat, List.getLastD_concat]
    rfl

theorem length_Linear_apply (l : Linear) (x : Vec) :
    (l.apply x).length = min l.weight.length l.bias.length := by
  simp [Linear.apply]

theorem Seq2SeqAttentionModel.decodeStates_logits_mem
    (m : Seq2SeqAttentionModel) (eh : List Vec) (mask : List ℚ)
    (targets : Option (ℕ → ℕ)) (draws : ℕ → ℚ) (n : ℕ) :
    ∀ row ∈ (m.decodeStates eh mask targets draws n).outputs_logits,
      ∃ h, row = m.decoder_projection.apply h := by
  induction n with
  | zero =>
    intro row hrow
    simp [Seq2SeqAttentionModel.decodeStates, Seq2SeqAttentionModel.decodeInit] at hrow
  | succ n ih =>
    intro row hrow
    rw [Seq2SeqAttentionModel.decodeStates_logits_concat] at hrow
    rcases List.mem_append.mp hrow with h | h
    · exact ih row h
    · exact ⟨_, by simpa using h⟩

theorem Seq2SeqAttentionModel.forward_length (m : Seq2SeqAttentionModel)
    (inputs : List ℕ) (targets : Option (ℕ → ℕ)) (draws : ℕ → ℚ) :
    (m.forward inputs targets draws).length = m.max_len := by
  simp [Seq2SeqAttentionModel.forward, Seq2SeqAttentionModel.decode,
    Seq2SeqAttentionModel.decodeStates_logits_length]

theorem Seq2SeqAttentionModel.forward_row_length (m : Seq2SeqAttentionModel)
    (hwf : m.WF) (inputs : List ℕ) (targets : Option (ℕ → ℕ)) (draws : ℕ → ℚ) :
    ∀ row ∈ m.forward inputs targets draws, row.length = m.vocab_size := by
  intro row hrow
  obtain ⟨h, rfl⟩ :=
    m.decodeStates_logits_mem (m.encode inputs).1 (m.encode inputs).2 targets draws
      m.max_len row hrow
  rw [length_Linear_apply, hwf.proj_weight, hwf.proj_bias, min_self]

/-- C5.  `Seq2SeqAttentionModel.forward` produces per-token logits over the
vocabulary for exactly `max_len` steps, whatever the inputs, targets and
draws (in particular decoding never stops early when the end token is
predicted): each batch row yields `max_len` logits rows of `vocab_size`
entries, and the batched forward pass yields one such output per batch
row, in both inference and training mode. -/
theorem forward_shape (m : Seq2SeqAttentionModel) (hwf : m.WF)
    (inputs : List ℕ) (targets : Option (ℕ → ℕ)) (draws : ℕ → ℚ)
    (batch : List (List ℕ)) (btargets : List (ℕ → ℕ))
    (hbt : btargets.length = batch.length) :
    (m.forward inputs targets draws).length = m.max_len ∧
    (∀ row ∈ m.forward inputs targets draws, row.length = m.vocab_size) ∧
    (m.forwardBatch batch none draws).length = batch.length ∧
    (m.forwardBatch batch (some btargets) draws).length = batch.length ∧
    (∀ out ∈ m.forwardBatch batch none draws,
      out.length = m.max_len ∧ ∀ row ∈ out, row.length = m.vocab_size) ∧
    (∀ out ∈ m.forwardBatch batch (some btargets) draws,
      out.length = m.max_len ∧ ∀ row ∈ out, row.length = m.vocab_size) := by
  refine ⟨m.forward_length inputs targets draws,
    m.forward_row_length hwf inputs targets draws, ?_, ?_, ?_, ?_⟩
  · simp [Seq2SeqAttentionModel.forwardBatch]
  · simp [Seq2SeqAttentionModel.forwardBatch, hbt]
  · intro out hout
    simp only [Seq2SeqAttentionModel.forwardBatch] at hout
    obtain ⟨row, _, rfl⟩ := List.mem_map.mp hout
    exact ⟨m.forward_length row none draws, m.forward_row_length hwf row none draws⟩
  · intro out hout
    simp only [Seq2SeqAttentionModel.forwardBatch] at hout
    obtain ⟨i, hi, rfl⟩ := List.mem_iff_getElem.mp hout
    rw [List.getElem_zipWith]
    exact ⟨m.forward_length _ _ draws, m.forward_row_length hwf _ _ draws⟩

/-- C5, witness: the toy model (with `max_len = 2`, `vocab_size = 2`) on
the input batch `[[1, 0]]` in inference mode. -/
theorem forward_shape_witness :
    (toyModel.forward [1, 0] none (fun _ => 0)).length = toyModel.max_len ∧
    (toyModel.forwardBatch [[1, 0]] none (fun _ => 0)).length = 1 := by
  have h := forward_shape toyModel ⟨rfl, rfl⟩ [1, 0] none (fun _ => 0)
    [[1, 0]] [fun _ => 0] rfl
  exact ⟨h.1, h.2.2.1⟩

theorem smul_getD (c : ℚ) (v : Vec) (k : ℕ) :
    (smul c v).getD k 0 = c * v.getD k 0 := by
  by_cases hk : k < v.length
  · rw [smul, List.getD_eq_getElem _ _ (by simpa using hk), List.getElem_map,
      List.getD_eq_getElem _ _ hk]
  · rw [smul, List.getD_eq_default _ _ (by simpa using not_lt.mp hk),
      List.getD_eq_default _ _ (not_lt.mp hk), mul_zero]

theorem vadd_getD (a b : Vec) (k : ℕ) (h1 : k < a.length) (h2 : k < b.length) :
    (vadd a b).getD k 0 = a.getD k 0 + b.getD k 0 := by
  rw [vadd, List.getD_eq_getElem _ _ (by simp [h1, h2]), List.getElem_zipWith,
    List.getD_eq_getElem _ _ h1, List.getD_eq_getElem _ _ h2]

theorem foldr_vadd_length (l : List Vec) (h : ℕ) (hl : ∀ v ∈ l, v.length = h) :
    (l.foldr vadd (List.replicate h 0)).length = h := by
  induction l with
  | nil => simp
  | cons a l ih =>
    have ha := hl a (List.mem_cons_self _ _)
    have ih' := ih (fun v hv => hl v (List.mem_cons_of_mem _ hv))
    simp [vadd, ha, ih']

theorem foldr_vadd_getD (l : List Vec) (h : ℕ) (hl : ∀ v ∈ l, v.length = h)
    (k : ℕ) (hk : k < h) :
    (l.foldr vadd (List.replicate h 0)).getD k 0 =
      (l.map (fun v => v.getD k 0)).sum := by
  induction l with
  | nil =>
    simp only [List.foldr_nil, List.map_nil, List.sum_nil]
    rw [List.getD_eq_getElem _ _ (by simpa using hk)]
    simp
  | cons a l ih =>
    have ha := hl a (List.mem_cons_self _ _)
    have hrest := foldr_vadd_length l h (fun v hv => hl v (List.mem_cons_of_mem _ hv))
    have ih' := ih (fun v hv => hl v (List.mem_cons_of_mem _ hv))
    have hk1 : k < a.length := by rw [ha]; exact hk
    have hk2 : k < (l.foldr vadd (List.replicate h 0)).length := by rw [hrest]; exact hk
    simp only [List.foldr_cons, List.map_cons, List.sum_cons]
    rw [vadd_getD _ _ k hk1 hk2, ih']

theorem weightedSum_getD (h : ℕ) (ws : List ℚ) (vs : List Vec)
    (hvs : ∀ v ∈ vs, v.length = h) (k : ℕ) (hk : k < h) :
    (weightedSum h ws vs).getD k 0 =
      (List.zipWith (fun w v => w * v.getD k 0) ws vs).sum := by
  have hz : ∀ v ∈ List.zipWith smul ws vs, v.length = h := by
    intro v hv
    obtain ⟨i, hi, rfl⟩ := List.mem_iff_getElem.mp hv
    rw [List.getElem_zipWith]
    rw [smul]
    simp only [List.length_map]
    exact hvs _ (List.getElem_mem _)
  rw [weightedSum, foldr_vadd_getD _ h hz k hk, List.map_zipWith]
  have hfun : (fun w v => (smul w v).getD k 0) = fun w (v : Vec) => w * v.getD k 0 := by
    funext w v
    exact smul_getD w v k
  rw [hfun]

/-- C7.  At every decoding step of `Seq2SeqAttentionModel.decode`, the
context vector `decoder_hidden_att` equals, componentwise, the sum over
all encoder positions of the normalized attention weight at that position
times the encoder hidden state at that position; and the hidden state
passed to the GRU decoder cell is the `decoder_hidden_combine` linear
layer applied to the concatenation of the previous decoder hidden state
with this context vector. -/
theorem decode_context_mixing (m : Seq2SeqAttentionModel) (eh : List Vec)
    (mask : List ℚ) (targets : Option (ℕ → ℕ)) (draws : ℕ → ℚ) (i : ℕ)
    (hvs : ∀ v ∈ eh, v.length = m.hidden_size) (k : ℕ) (hk : k < m.hidden_size) :
    (weightedSum m.hidden_size
        (attWeights m eh mask
          ((m.decodeStates eh mask targets draws i).decoder_hidden)) eh).getD k 0 =
      (List.zipWith (fun w v => w * v.getD k 0)
        (attWeights m eh mask
          ((m.decodeStates eh mask targets draws i).decoder_hidden)) eh).sum ∧
    (m.decodeStates eh mask targets draws (i+1)).decoder_hidden =
      m.decoderCell
        (m.embedding ((m.decodeStates eh mask targets draws i).decoder_inputs))
        (m.decoder_hidden_combine.apply
          ((m.decodeStates eh mask targets draws i).decoder_hidden ++
            weightedSum m.hidden_size
              (attWeights m eh mask
                ((m.decodeStates eh mask targets draws i).decoder_hidden)) eh)) :=
  ⟨weightedSum_getD _ _ _ hvs k hk, rfl⟩

/-- C7, witness: the first decoding step of the toy model on input
`[1, 0]`, component 0 of the context vector. -/
theorem decode_context_mixing_witness :
    (weightedSum toyModel.hidden_size
        (attWeights toyModel (toyModel.encode [1, 0]).1 (toyModel.encode [1, 0]).2
          ((toyModel.decodeStates (toyModel.encode [1, 0]).1 (toyModel.encode [1, 0]).2
            none (fun _ => 0) 0).decoder_hidden))
        (toyModel.encode [1, 0]).1).getD 0 0 =
      (List.zipWith (fun w v => w * v.getD 0 0)
        (attWeights toyModel (toyModel.encode [1, 0]).1 (toyModel.encode [1, 0]).2
          ((toyModel.decodeStates (toyModel.encode [1, 0]).1 (toyModel.encode [1, 0]).2
            none (fun _ => 0) 0).decoder_hidden))
        (toyModel.encode [1, 0]).1).sum :=
  (decode_context_mixing toyModel (toyModel.encode [1, 0]).1 (toyModel.encode [1, 0]).2
    none (fun _ => 0) 0 (by decide) 0 (by decide)).1

theorem mapM_eq_some_map {α β : Type} (f : α → Option β) (g : α → β) (l : List α)
    (h : ∀ a ∈ l, f a = some (g a)) : l.mapM f = some (l.map g) := by
  induction l with
  | nil => rfl
  | cons a l ih =>
    rw [List.mapM_cons, h a (List.mem_cons_self _ _),
      ih (fun x hx => h x (List.mem_cons_of_mem _ hx))]
    rfl

theorem pad_sentnece_length (d : SubtitlesDialogDataset) (sent : List String)
    (hml : 1 ≤ d.max_len) :
    (d._pad_sentnece sent).length = d.max_len := by
  simp only [SubtitlesDialogDataset._pad_sentnece, List.length_append,
    List.length_take, List.length_replicate, List.length_singleton]
  omega

theorem pad_sentnece_getD (d : SubtitlesDialogDataset) (sent : List String)
    (hml : 1 ≤ d.max_len) (j : ℕ) (hj : j < d.max_len) :
    (d._pad_sentnece sent).getD j "" =
      if j < min (d.max_len - 1) sent.length then sent.getD j ""
      else if j = min (d.max_len - 1) sent.length then Vocab.END_TOKEN
      else Vocab.PAD_TOKEN := by
  have hlen := pad_sentnece_length d sent hml
  have hjlen : j < (d._pad_sentnece sent).length := by rw [hlen]; exact hj
  have htake : (sent.take (d.max_len - 1)).length = min (d.max_len - 1) sent.length :=
    List.length_take _ _
  rw [List.getD_eq_getElem _ _ hjlen]
  rcases lt_trichotomy j (min (d.max_len - 1) sent.length) with hcase | hcase | hcase
  · rw [if_pos hcase]
    have hj1 : j < (sent.take (d.max_len - 1)).length := by rw [htake]; exact hcase
    have hj2 : j < (sent.take (d.max_len - 1) ++ [Vocab.END_TOKEN]).length := by
      simp only [List.length_append, List.length_singleton]; omega
    simp only [SubtitlesDialogDataset._pad_sentnece]
    rw [List.getElem_append_left (by simpa using hj2), List.getElem_append_left hj1,
      List.getElem_take]
    rw [List.getD_eq_getElem _ _ (by omega)]
  · rw [if_neg (by omega), if_pos hcase]
    have hj1 : (sent.take (d.max_len - 1)).length ≤ j := by omega
    have hj2 : j < (sent.take (d.max_len - 1) ++ [Vocab.END_TOKEN]).length := by
      simp only [List.length_append, List.length_singleton]; omega
    simp only [SubtitlesDialogDataset._pad_sentnece]
    rw [List.getElem_append_left (by simpa using hj2), List.getElem_append_right hj1]
    have : j - (sent.take (d.max_len - 1)).length = 0 := by omega
    simp [this]
  · rw [if_neg (by omega), if_neg (by omega)]
    have hj1 : (sent.take (d.max_len - 1) ++ [Vocab.END_TOKEN]).length ≤ j := by
      simp only [List.length_append, List.length_singleton]; omega
    simp only [SubtitlesDialogDataset._pad_sentnece]
    rw [List.getElem_append_right (by simpa using hj1)]
    simp [List.getElem_replicate]

/-- C9.  For every token list, `_process_sent` returns an id sequence of
length exactly `max_len` in which the END token id sits at position
`min (sent.length) (max_len - 1)`, every later position holds the PAD
token id, and every earlier position holds the vocabulary id of the
original token, falling back to the UNK token id when the token is absent;
and every pair returned by `__getitem__` consists of two such
`max_len`-length sequences (line `index` as query, line `index + 1` as
response). -/
theorem process_sent_spec (d : SubtitlesDialogDataset) (sent : List String)
    (hml : 1 ≤ d.max_len) (eid pid uid : ℕ)
    (hEND : d.vocab.getId Vocab.END_TOKEN = some eid)
    (hPAD : d.vocab.getId Vocab.PAD_TOKEN = some pid)
    (hUNK : d.vocab.getId Vocab.UNK_TOKEN = some uid) :
    (∃ res, d._process_sent sent = some res ∧
      res.length = d.max_len ∧
      res.getD (min sent.length (d.max_len - 1)) 0 = eid ∧
      (∀ j, min sent.length (d.max_len - 1) < j → j < d.max_len →
        res.getD j 0 = pid) ∧
      (∀ j < min sent.length (d.max_len - 1),
        res.getD j 0 =
          match d.vocab.getId (sent.getD j "") with
          | some i => i
          | none => uid)) ∧
    (∀ index, index + 1 < d.lines.length →
      ∃ q r, d.getitem index = some (q, r) ∧
        d._process_sent (d.lines.getD index []) = some q ∧
        d._process_sent (d.lines.getD (index + 1) []) = some r ∧
        q.length = d.max_len ∧ r.length = d.max_len) := by
  have hps : ∀ s : List String,
      d._process_sent s = some ((d._pad_sentnece s).map (fun t =>
        match d.vocab.getId t with
        | some i => i
        | none => uid)) := by
    intro s
    apply mapM_eq_some_map
    intro t ht
    cases hid : d.vocab.getId t with
    | some i => simp [hid]
    | none => simp [hid, hUNK]
  have hreslen : ∀ s : List String,
      ((d._pad_sentnece s).map (fun t =>
        match d.vocab.getId t with
        | some i => i
        | none => uid)).length = d.max_len := by
    intro s
    rw [List.length_map, pad_sentnece_length d s hml]
  have hcomm : min sent.length (d.max_len - 1) = min (d.max_len - 1) sent.length :=
    min_comm _ _
  have hgetD : ∀ j, j < d.max_len →
      ((d._pad_sentnece sent).map (fun t =>
        match d.vocab.getId t with
        | some i => i
        | none => uid)).getD j 0 =
      (match d.vocab.getId ((d._pad_sentnece sent).getD j "") with
        | some i => i
        | none => uid) := by
    intro j hj
    have hj1 : j < ((d._pad_sentnece sent).map (fun t =>
        match d.vocab.getId t with
        | some i => i
        | none => uid)).length := by rw [hreslen]; exact hj
    have hj2 : j < (d._pad_sentnece sent).length := by
      rw [pad_sentnece_length d sent hml]; exact hj
    rw [List.getD_eq_getElem _ _ hj1, List.getElem_map,
      List.getD_eq_getElem _ _ hj2]
  constructor
  · refine ⟨_, hps sent, hreslen sent, ?_, ?_, ?_⟩
    · have hLlt : min sent.length (d.max_len - 1) < d.max_len := by omega
      rw [hgetD _ hLlt, pad_sentnece_getD d sent hml _ hLlt]
      rw [if_neg (by omega), if_pos hcomm, hEND]
    · intro j hjL hjlen
      rw [hgetD _ hjlen, pad_sentnece_getD d sent hml _ hjlen]
      rw [if_neg (by omega), if_neg (by omega), hPAD]
    · intro j hjL
      have hjlen : j < d.max_len := by omega
      rw [hgetD _ hjlen, pad_sentnece_getD d sent hml _ hjlen]
      rw [if_pos (by omega)]
  · intro index hidx
    have h1 : index < d.lines.length := by omega
    have e1 : d.lines.getD index [] = d.lines[index] := List.getD_eq_getElem _ _ h1
    have e2 : d.lines.getD (index + 1) [] = d.lines[index + 1] :=
      List.getD_eq_getElem _ _ hidx
    refine ⟨_, _, ?_, hps (d.lines.getD index []), hps (d.lines.getD (index + 1) []),
      hreslen _, hreslen _⟩
    simp only [SubtitlesDialogDataset.getitem, List.getElem?_eq_getElem h1,
      List.getElem?_eq_getElem hidx, Option.bind_eq_bind, Option.some_bind]
    rw [← e1, ← e2, hps, hps]
    rfl

theorem toyVocab_wf : toyVocab.WF := by
  refine ⟨by decide, by decide, ?_⟩
  intro t ht
  have h0 := ht ("<pad>", 0) (by simp [toyVocab])
  have h1 := ht ("<start>", 1) (by simp [toyVocab])
  have h2 := ht ("<end>", 2) (by simp [toyVocab])
  have h3 := ht ("<unk>", 3) (by simp [toyVocab])
  have h4 := ht ("hi", 4) (by simp [toyVocab])
  have hm : t ∉ (["<pad>", "<start>", "<end>", "<unk>"] : List String) := by
    intro hmem
    simp only [List.mem_cons, List.not_mem_nil, or_false] at hmem
    rcases hmem with hc | hc | hc | hc
    · exact h0 hc.symm
    · exact h1 hc.symm
    · exact h2 hc.symm
    · exact h3 hc.symm
  show (if t = "hi" then 3
    else if t ∈ ["<pad>", "<start>", "<end>", "<unk>"] then 1 else 0) = 0
  rw [if_neg (fun hc => h4 hc.symm), if_neg hm]

/-- C9, witness: processing the first toy line and fetching item 0. -/
theorem process_sent_spec_witness :
    (∃ res, toyDataset._process_sent ["hi", "zz"] = some res ∧
      res.length = toyDataset.max_len) ∧
    (∃ q r, toyDataset.getitem 0 = some (q, r) ∧
      q.length = toyDataset.max_len ∧ r.length = toyDataset.max_len) := by
  have h := process_sent_spec toyDataset ["hi", "zz"] (by decide) 2 0 3
    (by decide) (by decide) (by decide)
  obtain ⟨⟨res, hres, hlen, _, _, _⟩, hitem⟩ := h
  obtain ⟨q, r, hqr, _, _, hq, hr⟩ := hitem 0 (by decide)
  exact ⟨⟨res, hres, hlen⟩, ⟨q, r, hqr, hq, hr⟩⟩

theorem Vocab.id2token_wf (v : Vocab) (hwf : v.WF) (k : ℕ)
    (h : k < v.token2id.length) :
    v.id2token k = some (v.token2id.get ⟨k, h⟩).1 := by
  have hmem : v.token2id.get ⟨k, h⟩ ∈ v.token2id.reverse := by
    rw [List.mem_reverse]
    exact List.get_mem _ _ _
  have hsome : (v.token2id.reverse.find? (fun p => p.2 == k)).isSome := by
    rw [List.find?_isSome]
    refine ⟨_, hmem, ?_⟩
    have hko := hwf.ids_ordered k h
    rw [List.get_eq_getElem] at hko
    simp [hko]
  obtain ⟨q, hq⟩ := Option.isSome_iff_exists.mp hsome
  have hq2 : q.2 = k := by simpa using List.find?_some hq
  have hqmem : q ∈ v.token2id := List.mem_reverse.mp (List.mem_of_find?_eq_some hq)
  obtain ⟨⟨j, hj⟩, hget⟩ := List.mem_iff_get.mp hqmem
  have hjq : q.2 = j := by rw [← hget]; exact hwf.ids_ordered j hj
  have hjk : j = k := by omega
  subst hjk
  rw [Vocab.id2token, hq]
  simp only [Option.map_some']
  rw [← hget]

theorem Vocab.save_wf (v : Vocab) (hwf : v.WF) :
    v.save = some ((v.token2id.map Prod.fst).map (saveRow v)) := by
  have hall : ∀ idx ∈ List.range v.token2id.length,
      ((v.id2token idx).map (fun token =>
        (⟨token, v.token_counts token, decide (token ∈ v.special_tokens)⟩ : VocabRow))) =
      some (saveRow v ((v.token2id.map Prod.fst).getD idx "")) := by
    intro idx hidx
    have hlt : idx < v.token2id.length := List.mem_range.mp hidx
    rw [v.id2token_wf hwf idx hlt]
    simp only [Option.map_some']
    have htok : (v.token2id.map Prod.fst).getD idx "" = (v.token2id.get ⟨idx, hlt⟩).1 := by
      rw [List.getD_eq_getElem _ _ (by simpa using hlt), List.getElem_map,
        List.get_eq_getElem]
    rw [htok, saveRow]
  rw [Vocab.save, mapM_eq_some_map _
    (fun idx => saveRow v ((v.token2id.map Prod.fst).getD idx "")) _ hall]
  congr 1
  apply List.ext_getElem
  · simp
  · intro k h1 h2
    simp only [List.getElem_map, List.getElem_range]
    congr 1
    rw [List.getD_eq_getElem _ _ (by simpa using h2), List.getElem_map]

theorem Vocab.load_save_token2id (v : Vocab) (hwf : v.WF) :
    (Vocab.load ((v.token2id.map Prod.fst).map (saveRow v))).token2id =
      v.token2id := by
  simp only [Vocab.load]
  apply List.ext_getElem
  · simp
  · intro k h1 h2
    simp only [List.getElem_map, List.getElem_enum]
    have hko := hwf.ids_ordered k h2
    rw [List.get_eq_getElem] at hko
    refine Prod.ext ?_ ?_
    · simp [saveRow]
    · simpa using hko.symm

theorem Vocab.load_save_specials (v : Vocab) (hwf : v.WF) :
    (Vocab.load ((v.token2id.map Prod.fst).map (saveRow v))).special_tokens =
      v.special_tokens := by
  simp only [Vocab.load]
  rw [List.filter_map, List.map_map]
  have h1 : ((fun r : VocabRow => r.is_special) ∘ saveRow v) =
      fun t => decide (t ∈ v.special_tokens) := rfl
  have h2 : ((fun r : VocabRow => r.token) ∘ saveRow v) = id := rfl
  rw [h1, h2, List.map_id]
  exact hwf.specials_in_id_order

theorem Vocab.load_save_counts (v : Vocab) (hwf : v.WF) (t : String) :
    (Vocab.load ((v.token2id.map Prod.fst).map (saveRow v))).token_counts t =
      v.token_counts t := by
  simp only [Vocab.load]
  cases hfind : ((v.token2id.map Prod.fst).map (saveRow v)).reverse.find?
      (fun r => r.token == t) with
  | none =>
    rw [List.find?_eq_none] at hfind
    have habs : ∀ p ∈ v.token2id, p.1 ≠ t := by
      intro p hp hpt
      have hrow : saveRow v p.1 ∈ ((v.token2id.map Prod.fst).map (saveRow v)).reverse := by
        rw [List.mem_reverse]
        exact List.mem_map_of_mem _ (List.mem_map_of_mem _ hp)
      have := hfind _ hrow
      simp [saveRow, hpt] at this
    simp [hwf.counts_dom t habs]
  | some r =>
    have hr : r ∈ ((v.token2id.map Prod.fst).map (saveRow v)).reverse :=
      List.mem_of_find?_eq_some hfind
    rw [List.mem_reverse] at hr
    obtain ⟨tok, htok, rfl⟩ := List.mem_map.mp hr
    have hbeq := List.find?_some hfind
    have heq : tok = t := by simpa [saveRow] using hbeq
    subst heq
    simp [saveRow]

/-- C10.  Saving then loading a vocabulary is a round trip: for every
`Vocab` satisfying the class invariants (`Vocab.WF`: ids are assigned in
insertion order `0, 1, 2, …`; the special tokens come first in id order;
counts vanish outside the vocabulary) with a non-empty special-token list,
`Vocab.load` applied to the rows written by `save` yields a vocabulary
with the same token-to-id mapping — the very same association list, whose
tokens are enumerated in id order — the same token counts on every token,
and the same special tokens in the same order. -/
theorem vocab_save_load_roundtrip (v : Vocab) (hwf : v.WF)
    (_hne : v.special_tokens ≠ []) :
    ∃ rows, v.save = some rows ∧
      (Vocab.load rows).token2id = v.token2id ∧
      (Vocab.load rows).special_tokens = v.special_tokens ∧
      ∀ t, (Vocab.load rows).token_counts t = v.token_counts t :=
  ⟨_, v.save_wf hwf, v.load_save_token2id hwf, v.load_save_specials hwf,
    fun t => v.load_save_counts hwf t⟩

/-- C10, witness: the roundtrip instantiated at `toyVocab`. -/
theorem vocab_save_load_roundtrip_witness :
    ∃ rows, toyVocab.save = some rows ∧
      (Vocab.load rows).token2id = toyVocab.token2id ∧
      (Vocab.load rows).special_tokens = toyVocab.special_tokens ∧
      ∀ t, (Vocab.load rows).token_counts t = toyVocab.token_counts t :=
  vocab_save_load_roundtrip toyVocab toyVocab_wf (by decide)
